import Mathlib

/-!
# Verification of the reactive state-tracking and chunk-rendering engine

This file gives a shallow embedding, in Lean 4, of the reactive engine
found in the repository (an ArrowJS-style library): the batching queue
(`queue` / `executeQueue`), the dependency-diffing watch re-evaluation
(`w` / `callFn`), the observable proxy's `set` trap, the object wrapper
`r`, template compilation (`t` / `addExpressions`), and the template
partial machinery (`partial.add`, `partial._up`).

Conventions used throughout:
* JS `Set` objects are modelled as insertion-ordered duplicate-free
  `List`s; `Set.add` is `setAdd`, `Set.delete` is `setDelete`.
* JS object / proxy identity is modelled by explicit numeric ids.
* The browser's HTML parser (`createNodes` + `fragment`) is abstracted
  by a function `parseNodes : String → Nat` giving the number of
  top-level DOM nodes produced by a markup string; theorems are
  universally quantified over it.
* `setTimeout` deferral is modelled structurally: a "turn" is a list of
  synchronous mutations folded over the state, and the queue flush
  (`executeQueueRun`) is applied to the state *after* the whole fold,
  which is exactly the host guarantee that a `setTimeout` callback runs
  only once the current synchronous turn has completed.
-/

/-- Insertion-ordered `Set.add`: JS `Set` membership is checked first,
so re-adding an element that is already present is a no-op. -/
def setAdd {α : Type} [DecidableEq α] (s : List α) (x : α) : List α :=
  if x ∈ s then s else s ++ [x]

/-- JS `Set.delete`. -/
def setDelete {α : Type} [DecidableEq α] (s : List α) (x : α) : List α :=
  s.filter (fun y => y ≠ x)

/-! ## The batching queue (`queueStack` / `queue` / `executeQueue`)

Source: `queue` in `src/unnamed/part_000` lines 31-53.  `queue(fn)`
returns an observer callback; each invocation schedules one
`executeQueue` via `setTimeout` when the stack was empty, and adds `fn`
to the (de-duplicating) `queueStack` set. -/

/-- The scheduler's global state: the pending `queueStack` set and
whether an `executeQueue` has been scheduled with `setTimeout`. -/
structure QState (γ : Type) where
  queueStack : List γ
  scheduled : Bool
deriving Repr

/-- One invocation of the callback returned by `queue(fn)`:
`if (!queueStack.size) setTimeout(executeQueue); queueStack.add(fn);`. -/
def queueCb {γ : Type} [DecidableEq γ] (st : QState γ) (fn : γ) : QState γ :=
  { scheduled := st.scheduled || st.queueStack.isEmpty
    queueStack := setAdd st.queueStack fn }

/-- The state threaded through one synchronous turn: a single
observable's property store plus the scheduler state.  Property keys
are `Nat`, property values are `Int`, and `γ` identifies the queued
watch callbacks (`callFn` closures). -/
structure TurnState (γ : Type) where
  store : Nat → Int
  q : QState γ

/-- One property write on the observable, as performed by the proxy
`set` trap for plain values: the write is applied, and when the old
value differs from the new one every observer callback subscribed to
that property is invoked (`_em`), each invocation being a `queueCb`. -/
def runMutation {γ : Type} [DecidableEq γ] (observers : Nat → List γ)
    (s : TurnState γ) (m : Nat × Int) : TurnState γ :=
  let old := s.store m.1
  let store' := fun k => if k = m.1 then m.2 else s.store k
  if old ≠ m.2 then
    { store := store', q := (observers m.1).foldl queueCb s.q }
  else
    { store := store', q := s.q }

/-- A synchronous turn: a sequence of property writes executed
back-to-back with no intervening flush. -/
def runTurn {γ : Type} [DecidableEq γ] (observers : Nat → List γ)
    (muts : List (Nat × Int)) (s : TurnState γ) : TurnState γ :=
  muts.foldl (runMutation observers) s

/-- `executeQueue`, whose `setTimeout` has fired after the turn: the
current `queueStack` is copied and cleared, and every captured callback
runs once.  Each queued callback is a watch's `callFn`, which re-reads
the store; `watchEval w` is the value watch `w` computes from a store.
Returns the ordered run log (which watch ran, with which value) and the
post-flush state.  Re-entrant enqueues during the flush (a watch
mutating state while running) are not exercised here because
`watchEval` is a pure read. -/
def executeQueueRun {γ : Type} (watchEval : γ → (Nat → Int) → Int)
    (s : TurnState γ) : List (γ × Int) × TurnState γ :=
  (s.q.queueStack.map (fun w => (w, watchEval w s.store)),
   { store := s.store, q := { queueStack := [], scheduled := false } })

/-! ## Watch re-evaluation (`w` / `callFn`)

Source: `callFn` in `src/unnamed/part_000` lines 283-302.  After
running the tracked expression, `callFn` diffs the freshly recorded
dependency map against `currentDeps`: per proxy of `currentDeps`, the
properties also present in the new map are deleted from the
set-to-unobserve and every remaining property gets `$off`; then every
(proxy, property) of the new map gets `$on`; finally `after` is applied
to the value if present.  We model a dependency map (`Map<proxy,
Set<prop>>`) as an association list and record the operations `callFn`
performs as an ordered action log. -/

/-- A dependency map: proxy id → ordered set of property names read. -/
abbrev DepMap := List (Nat × List String)

/-- The atomic operations `callFn` performs after evaluating `fn`. -/
inductive WatchAction where
  | unsub (proxy : Nat) (prop : String)
  | sub (proxy : Nat) (prop : String)
  | applyAfter
deriving DecidableEq, Repr

/-- `newDeps.get(proxy)`. -/
def lookupDeps (m : DepMap) (proxy : Nat) : Option (List String) :=
  (m.find? (fun e => e.1 = proxy)).map (fun e => e.2)

/-- All (proxy, property) pairs of a dependency map, in map order. -/
def depPairs (m : DepMap) : List (Nat × String) :=
  m.foldr (fun e acc => e.2.map (fun p => (e.1, p)) ++ acc) []

/-- The pairs `callFn` unsubscribes: for every proxy of `currentDeps`,
its recorded properties minus those the new evaluation also read
(`newProperties.forEach((prop) => propertiesToUnobserve.delete(prop))`),
or all of them when the proxy was not read at all. -/
def unsubPairs (currentDeps newDeps : DepMap) : List (Nat × String) :=
  currentDeps.foldr
    (fun e acc =>
      (match lookupDeps newDeps e.1 with
        | some np => e.2.filter (fun p => ¬ p ∈ np)
        | none => e.2).map (fun p => (e.1, p)) ++ acc) []

/-- The ordered action log of one `callFn` run: all `$off` calls, then
all `$on` calls, then (when an `after` callback was supplied) the
application of `after` to the computed value. -/
def callFnActions (currentDeps newDeps : DepMap) (hasAfter : Bool) :
    List WatchAction :=
  (unsubPairs currentDeps newDeps).map (fun q => WatchAction.unsub q.1 q.2) ++
  (depPairs newDeps).map (fun q => WatchAction.sub q.1 q.2) ++
  (if hasAfter then [WatchAction.applyAfter] else [])

/-- Effect of one action on the Watch's subscription pair set
(`$off` = `Set.delete`, `$on` = `Set.add`). -/
def applyWatchAction (subs : List (Nat × String)) :
    WatchAction → List (Nat × String)
  | .unsub proxy prop => setDelete subs (proxy, prop)
  | .sub proxy prop => setAdd subs (proxy, prop)
  | .applyAfter => subs

def applyWatchActions (subs : List (Nat × String))
    (acts : List WatchAction) : List (Nat × String) :=
  acts.foldl applyWatchAction subs

/-! ## Runtime values and the object wrapper `r`

Source: `isR` (lines 15-20) and `r` (lines 66-87) of
`src/unnamed/part_000`.  JS runtime values are modelled by `JVal`;
object and function identity (what `===` compares) is an explicit
numeric id, so two distinct objects with equal contents are distinct
values.  `typeof null === 'object'` in JS, which `typeofIsObject`
reproduces. -/

inductive JVal where
  | undef
  | nullV
  | bool (b : Bool)
  | num (n : Int)
  | str (s : String)
  | func (id : Nat)
  | obj (id : Nat) (fields : List (String × JVal))
  | reactive (id : Nat) (fields : List (String × JVal))

/-- JS `typeof v === 'object'` (true for `null`, plain objects and
proxies; false for functions and all other primitives). -/
def typeofIsObject : JVal → Bool
  | .nullV => true
  | .obj _ _ => true
  | .reactive _ _ => true
  | _ => false

/-- JS `ToBoolean` (truthiness).  `NaN` is not modelled. -/
def truthy : JVal → Bool
  | .undef => false
  | .nullV => false
  | .bool b => b
  | .num n => n != 0
  | .str s => s != ""
  | _ => true

/-- JS `===` / `!==`: value comparison for primitives, identity (id)
comparison for functions, objects and proxies. -/
def jsStrictEq : JVal → JVal → Bool
  | .undef, .undef => true
  | .nullV, .nullV => true
  | .bool a, .bool b => a == b
  | .num a, .num b => a == b
  | .str a, .str b => a == b
  | .func a, .func b => a == b
  | .obj a _, .obj b _ => a == b
  | .reactive a _, .reactive b _ => a == b
  | _, _ => false

/-- `isR`: `typeof obj === 'object' && obj !== null && '$on' in obj &&
typeof obj.$on === 'function'`.  A reactive proxy always reports `$on`
(through its `has`/`get` traps over `depProps`); a plain object passes
the test only if it happens to carry a function-valued `$on` field. -/
def isR : JVal → Bool
  | .reactive _ _ => true
  | .obj _ fields =>
      match fields.lookup "$on" with
      | some (.func _) => true
      | _ => false
  | _ => false

mutual
/-- `r(data)`: returns the argument unchanged when it is already
reactive or not a `typeof`-object; otherwise builds a reactive proxy
whose source copies every field, recursively wrapping the non-null
object-typed fields that are not already reactive (lines 78-87).
Since `typeof null === 'object'` and `isR(null)` is false, `r(null)`
falls through to the wrapping path: `Object.create(null, {})` with a
zero-iteration `for...in`, i.e. a reactive proxy over an empty source
(its identity is a fresh proxy; the model does not track an id for
it).  The proxy's identity is modelled by reusing the source object's
id under the `reactive` constructor.  The function is total: no input
makes it throw. -/
def rWrap : JVal → JVal
  | .obj i fields =>
      if isR (.obj i fields) then .obj i fields
      else .reactive i (wrapFields fields)
  | .nullV => .reactive 0 []
  | v => v

/-- The `for (const property in data)` construction loop of `r`: a
non-null object-typed entry is stored wrapped (unless already
reactive), every other entry is stored as-is. -/
def wrapFields : List (String × JVal) → List (String × JVal)
  | [] => []
  | (k, e) :: rest =>
      (k, if typeofIsObject e && !(e matches .nullV) then
            (if isR e then e else rWrap e)
          else e) :: wrapFields rest
end

/-! ## The proxy `set` trap

Source: the `set` handler of the proxy in `r`, lines 152-191 of
`src/unnamed/part_000`.  Three paths: (1) writes to the reserved
`depProps` keys go to the internal record; (2) a truthy new value over
an old value that is reactive takes the state-transfer path
(`reactiveMerge` / re-wrap, outside the scope of the plain-write
claim); (3) otherwise the write is applied (`Reflect.set` succeeds on
these plain data targets), own-property observers are notified iff
`old !== value`, and, when a parent link `_p = [childName, parent]`
exists, `parent._em(childName, parent)` is called — a single
notification of the immediate parent at this proxy's name in the
parent (the new-value argument `_em` receives is the parent proxy
itself, per the spread `_em(...proxy._p)`). -/

/-- The reserved internal property names (`depProps`). -/
def depPropsKeys : List String := ["$on", "$off", "_em", "_st", "_p"]

/-- A notification produced by one write: either this observable's own
per-property observers (`_em(property, value, old)`), or the
one-level-up parent notification. -/
inductive Emission where
  | selfEmit (property : String) (newValue oldValue : JVal)
  | parentEmit (parentId : Nat) (childName : String)

/-- Result of the `set` trap. -/
inductive SetOutcome where
  | reserved
  | stateTransfer
  | plain (emits : List Emission)

/-- The `set` trap on a write of `value` to `property`, where `old` is
the current stored value and `parentLink` is this proxy's `_p`
(child-name-in-parent, parent id). -/
def setTrap (property : String) (old value : JVal)
    (parentLink : Option (String × Nat)) : SetOutcome :=
  if property ∈ depPropsKeys then .reserved
  else if truthy value && isR old then .stateTransfer
  else .plain
    ((if jsStrictEq old value then [] else [.selfEmit property value old]) ++
     (match parentLink with
      | some (childName, parentId) => [.parentEmit parentId childName]
      | none => []))

/-! ## Template compilation (`t` / `addExpressions` / `toString`)

Source: `t` in `src/unnamed/part_000` lines 332-387.  A tagged
template call receives the literal string segments and the interleaved
slot values.  `toString` folds over the segments, appending each and
then — only when `expSlots[i] !== undefined` — processing the slot with
`addExpressions`, which turns a function slot into a delimiter comment
plus a pushed expression descriptor, flattens an array slot by
reducing over its elements, and appends any other value with JS string
coercion (`html + expression`; note a JS `undefined` *inside* an array
reaches this branch and is coerced to the text `"undefined"`).  A slot
value is modelled by `Slot`: a function (descriptor id), an array, the
value `undefined`, or any other value represented by its string
coercion. -/

inductive Slot where
  | func (id : Nat)
  | arr (elems : List Slot)
  | undef
  | lit (s : String)

/-- `const delimiterComment = `<!--${delimiter}-->``. -/
def delimiterComment : String := "<!--➳❍-->"

mutual
/-- `addExpressions(expression, html)`: accumulator is
(markup-so-far, descriptor ids pushed so far). -/
def addExpressions : Slot → String × List Nat → String × List Nat
  | .func id, (h, es) => (h ++ delimiterComment, es ++ [id])
  | .arr elems, acc => addExpressionsList elems acc
  | .undef, (h, es) => (h ++ "undefined", es)
  | .lit s, (h, es) => (h ++ s, es)

/-- `expression.reduce((html, exp) => addExpressions(exp, html), html)`. -/
def addExpressionsList : List Slot → String × List Nat → String × List Nat
  | [], acc => acc
  | e :: rest, acc => addExpressionsList rest (addExpressions e acc)
end

/-- `toString`'s `strings.reduce(interlaceTemplate, '')`: append each
literal segment, then process the same-index slot unless it is
`undefined` (or the segments have outrun the slots). -/
def interlaceTemplate :
    List String → List Slot → String × List Nat → String × List Nat
  | [], _, acc => acc
  | sv :: ss, slots, (h, es) =>
      let h' := h ++ sv
      match slots with
      | [] => interlaceTemplate ss [] (h', es)
      | sl :: rest =>
          interlaceTemplate ss rest
            (if sl matches .undef then (h', es) else addExpressions sl (h', es))

/-- `toString` of a template: the completely empty template
`html`` ` compiles to the placeholder `<!---->`; otherwise the
interlacing fold runs from the empty accumulator. -/
def tToString (strings : List String) (slots : List Slot) :
    String × List Nat :=
  match slots, strings with
  | [], [""] => ("<!---->", [])
  | slots, strings => interlaceTemplate strings slots ("", [])

/-! Specification-level description of one slot's contribution,
used to state C6. -/

mutual
/-- Markup contributed by one slot value reached by `addExpressions`:
a sentinel for a function, recursive flattening for an array, the JS
string coercion otherwise. -/
def slotMarkup : Slot → String
  | .func _ => delimiterComment
  | .arr es => slotMarkupList es
  | .undef => "undefined"
  | .lit s => s

def slotMarkupList : List Slot → String
  | [] => ""
  | sl :: rest => slotMarkup sl ++ slotMarkupList rest
end

mutual
/-- Descriptor ids contributed by one slot value, in left-to-right
order. -/
def slotExps : Slot → List Nat
  | .func id => [id]
  | .arr es => slotExpsList es
  | .undef => []
  | .lit _ => []

def slotExpsList : List Slot → List Nat
  | [] => []
  | sl :: rest => slotExps sl ++ slotExpsList rest
end

/-- The contribution the (amended) C6 claim assigns to one top-level
slot: an `undefined` slot contributes nothing (the
`expSlots[i] !== undefined` guard skips it); every other slot
contributes its `slotMarkup`/`slotExps`. -/
def slotContribution (sl : Slot) : String × List Nat :=
  match sl with
  | .undef => ("", [])
  | sl => (slotMarkup sl, slotExps sl)

/-- The compiled form the (amended) C6 claim predicts: literal
segments interleaved with per-slot contributions, preserving
left-to-right order. -/
def interlaceSpec : List String → List Slot → String × List Nat
  | [], _ => ("", [])
  | sv :: ss, [] =>
      let r := interlaceSpec ss []
      (sv ++ r.1, r.2)
  | sv :: ss, sl :: rest =>
      let c := slotContribution sl
      let r := interlaceSpec ss rest
      (sv ++ c.1 ++ r.1, c.2 ++ r.2)

/-! ## Template partials (`createPartial`: `add`, render, `_up`)

Source: `createPartial` in `src/unnamed/part_000` lines 557-743.  The
DOM is modelled as an ordered sibling list of `DomNode`s; the per-node
render-group symbol (`Object.defineProperty(node, group, ...)`) is the
boolean `tagged` (only one partial tree, hence one group, appears in
any theorem); `isText` marks `Text` nodes.  Expression descriptors are
mutable shared objects; they live in a `DescStore` indexed by
descriptor id, and `_up` (lines 344-347 of the template compiler)
replaces the bound expression and invokes the descriptor's observer,
which the model counts in `notifs`.  The browser HTML parse of a
chunk's markup is abstracted by `parseNodes : String → Nat`, the
number of top-level nodes the markup produces; `assignDomChunks`'s
bookend scan then assigns exactly those nodes to the chunk.  JS array
identity (`prev.dom !== chunk.dom`) is modelled by list equality,
node ids being unique. -/

/-- An expression descriptor: the raw expression currently bound
(`e`) and how many times its observer hook has fired. -/
structure Desc where
  e : Nat
  notifs : Nat
deriving Repr, DecidableEq

abbrev DescStore := Nat → Desc

/-- `descriptor._up(exp)`: rebind and notify. -/
def descUp (store : DescStore) (d : Nat) (newFn : Nat) : DescStore :=
  fun j => if j = d then { e := newFn, notifs := (store d).notifs + 1 } else store j

/-- A value passed to `partial.add`: a template (`_h()` returns its
markup, descriptor ids and key) or a text-ish value. -/
inductive AddVal where
  | nullV
  | undef
  | bool (b : Bool)
  | num (n : Int)
  | str (s : String)
  | tpl (markup : String) (exps : List Nat) (key : Nat)
deriving Repr, DecidableEq, Inhabited

def isTplB : AddVal → Bool
  | .tpl _ _ _ => true
  | _ => false

/-- JS falsiness of an `AddVal` (`!tpl`). -/
def addValFalsy : AddVal → Bool
  | .nullV => true
  | .undef => true
  | .bool b => !b
  | .num n => n == 0
  | .str s => s == ""
  | .tpl _ _ _ => false

/-- `if (!tpl && tpl !== 0) return partial;` — true exactly for the
falsy values other than the number `0`. -/
def addSkips (v : AddVal) : Bool :=
  addValFalsy v && !(v == .num 0)

/-- JS string coercion of a text-ish added value (used for
`nodeValue = chunk.tpl`). -/
def addValText : AddVal → String
  | .nullV => "null"
  | .undef => "undefined"
  | .bool b => if b then "true" else "false"
  | .num n => toString n
  | .str s => s
  | .tpl _ _ _ => ""

/-- A chunk: `{ html, exp, dom, tpl, key }` (key `0` = no key, the JS
falsy default). -/
structure Chunk where
  html : String
  exp : List Nat
  dom : List Nat
  tpl : AddVal
  key : Nat
deriving Repr, DecidableEq, Inhabited

/-- `chunk.dom.length === 1 && !isTpl(chunk.tpl)`. -/
def isTextNodeChunkB (c : Chunk) : Bool :=
  c.dom.length == 1 && !(isTplB c.tpl)

/-- The mutable state of one partial. -/
structure PartialSt where
  html : String
  chunks : List Chunk
  previousChunks : List Chunk
  keyed : List (Nat × Chunk)
  exprsE : List Nat
  l : Nat
deriving Repr, DecidableEq, Inhabited

def emptyPartial : PartialSt :=
  { html := ""
    chunks := []
    previousChunks := []
    keyed := []
    exprsE := []
    l := 0 }

/-- `const bookendComment = `<!--${bookend}-->``. -/
def bookendComment : String := "<!--❍⇚-->"

/-- `partial.add(tpl)` (lines 588-621).  Falsy non-zero values are a
no-op.  Otherwise the template's markup (or `''` for a text value)
plus a bookend go onto the accumulated html; an existing keyed chunk
is reused (its descriptors rebound via `_up` to the incoming
template's expressions, reading `localExpressions[i].e` at call time),
else a fresh chunk is pushed (and registered when keyed). -/
def partialAdd (descs : DescStore) (P : PartialSt) (tpl : AddVal) :
    DescStore × PartialSt :=
  if addSkips tpl then (descs, P)
  else
    let tlk : String × List Nat × Nat :=
      match tpl with
      | .tpl h es k => (h, es, k)
      | _ => ("", [], 0)
    let template := tlk.1
    let localExps := tlk.2.1
    let key := tlk.2.2
    let html' := P.html ++ template ++ bookendComment
    let keyedChunk := if key ≠ 0 then P.keyed.lookup key else none
    match keyedChunk with
    | some kc =>
        let descs' := (kc.exp.zip localExps).foldl
          (fun ds q => descUp ds q.1 ((ds q.2).e)) descs
        (descs', { P with
          html := html'
          chunks := P.chunks ++ [kc]
          exprsE := P.exprsE ++ localExps
          l := P.l + 1 })
    | none =>
        let chunk : Chunk :=
          { html := template
            exp := localExps
            dom := []
            tpl := tpl
            key := key }
        let keyed' := if key ≠ 0 then P.keyed ++ [(key, chunk)] else P.keyed
        (descs, { P with
          html := html'
          chunks := P.chunks ++ [chunk]
          keyed := keyed'
          exprsE := P.exprsE ++ localExps
          l := P.l + 1 })

/-- A DOM node: identity, render-group tag, `Text`-ness, `nodeValue`. -/
structure DomNode where
  id : Nat
  tagged : Bool
  isText : Bool
  val : String
deriving Repr, DecidableEq, Inhabited

/-- `addPlaceholderChunk(node?)` (lines 705-714): html `'<!---->'`,
key `0`, template `t`${'<!---->'}`` (which compiles to the same
markup with no expressions). -/
def placeholderChunk (node : Option Nat) : Chunk :=
  { html := "<!---->"
    exp := []
    dom := match node with | some n => [n] | none => []
    tpl := .tpl "<!---->" [] 0
    key := 0 }

/-- The general render path of `partial()` followed by
`assignDomChunks`: each chunk's markup produces `parseNodes c.html`
fresh top-level nodes, every produced node is stamped with the render
group, and the bookend scan appends the produced range to the chunk's
`dom`.  Returns (chunks with dom assigned, produced nodes in order,
next fresh id). -/
def renderChunksAlloc (parseNodes : String → Nat) (fresh : Nat)
    (cs : List Chunk) : List Chunk × List DomNode × Nat :=
  cs.foldl
    (fun acc c =>
      let n := parseNodes c.html
      let newNodes := (List.range n).map
        (fun i => ({ id := acc.2.2 + i
                     tagged := true
                     isText := false
                     val := "" } : DomNode))
      (acc.1 ++ [{ c with dom := c.dom ++ newNodes.map (fun nd => nd.id) }],
       acc.2.1 ++ newNodes, acc.2.2 + n))
    ([], [], fresh)

/-- `reset()` (lines 697-704): clear accumulation, move `chunks` to
`previousChunks`; the keyed map persists. -/
def resetPartial (P : PartialSt) : PartialSt :=
  { html := ""
    chunks := []
    previousChunks := P.chunks
    keyed := P.keyed
    exprsE := []
    l := 0 }

/-- `partial()` (lines 567-585): render the accumulated chunks.  An
empty partial first gets a placeholder chunk.  A single non-template
chunk renders as one bare (untagged) text node holding the coerced
value — reusing `chunk.dom[0]` when it exists, else pushing a fresh
text node.  Otherwise the markup is parsed and nodes are assigned per
chunk.  Ends with `reset()`.  Returns (produced node list, partial
state after reset, next fresh id). -/
def partialRunRender (parseNodes : String → Nat) (P : PartialSt)
    (fresh : Nat) : List DomNode × PartialSt × Nat :=
  let cs := if P.chunks.isEmpty then [placeholderChunk none] else P.chunks
  match cs with
  | [c] =>
      if !(isTplB c.tpl) then
        match c.dom with
        | [] =>
            let nd : DomNode :=
              { id := fresh
                tagged := false
                isText := true
                val := addValText c.tpl }
            ([nd], resetPartial { P with chunks := [{ c with dom := [fresh] }] },
             fresh + 1)
        | d0 :: _ =>
            ([{ id := d0
                tagged := false
                isText := true
                val := addValText c.tpl }],
             resetPartial { P with chunks := [c] }, fresh)
      else
        let r := renderChunksAlloc parseNodes fresh [c]
        (r.2.1, resetPartial { P with chunks := r.1 }, r.2.2)
  | cs0 =>
      let r := renderChunksAlloc parseNodes fresh cs0
      (r.2.1, resetPartial { P with chunks := r.1 }, r.2.2)

/-- DOM sibling-list insertion next to an anchor node.  `.before` /
`.after` move semantics: the inserted nodes are first detached from
the list, then spliced in just before (`after = false`) or just after
(`after = true`) the anchor.  (If the anchor is absent the nodes land
at the end; real JS would have thrown earlier — the theorems'
scenarios keep the anchor present.) -/
def insertRel (container : List DomNode) (anchor : Nat) (ns : List DomNode)
    (after : Bool) : List DomNode :=
  let c := container.filter (fun n => !(ns.any (fun m => m.id == n.id)))
  let i := c.findIdx (fun n => n.id == anchor)
  let pos := if after then min (i + 1) c.length else min i c.length
  c.take pos ++ ns ++ c.drop pos

/-- The siblings strictly after the node `anchor`
(`anchorNode.nextSibling`, then each `.nextSibling`). -/
def nodesAfter (container : List DomNode) (anchor : Nat) : List DomNode :=
  (container.dropWhile (fun n => n.id ≠ anchor)).drop 1

/-- Which of the three reconciliation actions `_up` takes at one
index. -/
inductive UpCase where
  | keyed
  | structural
  | rebuild
deriving Repr, DecidableEq

/-- The in-flight state of one `partial._up()` run. -/
structure UpState where
  container : List DomNode
  chunks : List Chunk
  descs : DescStore
  fresh : Nat
  toRemove : List Nat
  lastNode : Nat
  startChunking : Nat
  sub : PartialSt
  trace : List UpCase

/-- `transferChunks(subPartial, chunks, startChunking)` (lines
737-741): copy each rendered sub-chunk's `dom` onto the main chunk at
the offset position. -/
def transferChunks (chunks : List Chunk) (chunkIndex : Nat)
    (rendered : List Chunk) : List Chunk :=
  rendered.enum.foldl
    (fun cs p =>
      match cs.get? (chunkIndex + p.1) with
      | some c => cs.set (chunkIndex + p.1) { c with dom := p.2.dom }
      | none => cs)
    chunks

/-- `closeSubPartial()` (lines 630-638): if the sub-partial has
accumulated chunks, render it, splice the fragment before `lastNode`
(after it when `startChunking ≠ 0`), transfer the chunk→dom
assignments back, and advance `lastNode` to the fragment's last
node. -/
def closeSubPartial (parseNodes : String → Nat) (st : UpState) : UpState :=
  if st.sub.l = 0 then st
  else
    let r := partialRunRender parseNodes st.sub st.fresh
    let nodes := r.1
    let container' := insertRel st.container st.lastNode nodes
      (st.startChunking ≠ 0)
    let chunks' := transferChunks st.chunks st.startChunking
      r.2.1.previousChunks
    { st with
      container := container'
      chunks := chunks'
      fresh := r.2.2
      lastNode := ((nodes.getLast?).map (fun nd => nd.id)).getD st.lastNode
      sub := r.2.1 }

/-- One iteration of the `chunks.forEach((chunk, index) => ...)` body
of `_up` (lines 639-685), on the enumerated pair `(index, chunk)`. -/
def upStep (parseNodes : String → Nat) (previousChunks : List Chunk)
    (st : UpState) (p : Nat × Chunk) : UpState :=
  let index := p.1
  let chunk := p.2
  let prev? := previousChunks[index]?
  if chunk.key ≠ 0 ∧ chunk.dom ≠ [] then
    -- 1. keyed chunk with already-materialized nodes: reuse verbatim,
    -- relocating only when the previous dom is not the same array.
    let st := closeSubPartial parseNodes st
    let container' :=
      if (match prev? with
          | some pv => pv.dom == chunk.dom
          | none => false) then st.container
      else
        let moved := chunk.dom.filterMap
          (fun nid => st.container.find? (fun n => n.id = nid))
        insertRel st.container st.lastNode moved (index ≠ 0)
    { st with
      container := container'
      lastNode := (chunk.dom.getLast?).getD st.lastNode
      trace := st.trace ++ [UpCase.keyed] }
  else if (match prev? with
           | some pv => chunk.html == pv.html && pv.key == 0
           | none => false) then
    -- 2. structural match: reuse the previous dom, rebind the
    -- previous descriptors to the new expressions (notifying each),
    -- and patch the text value for a single-text-node chunk.
    let st := closeSubPartial parseNodes st
    let pv := prev?.getD default
    let descs' := (pv.exp.zip chunk.exp).foldl
      (fun ds q => descUp ds q.1 ((ds q.2).e)) st.descs
    let newChunk := { chunk with exp := pv.exp, dom := pv.dom }
    let lastNode' := (pv.dom.getLast?).getD st.lastNode
    let container' :=
      if isTextNodeChunkB newChunk ∧
         ((st.container.find? (fun n => n.id = lastNode')).map
           (fun n => n.isText)).getD false = true then
        st.container.map (fun n =>
          if n.id = lastNode' then { n with val := addValText newChunk.tpl }
          else n)
      else st.container
    { st with
      container := container'
      descs := descs'
      chunks := st.chunks.set index newChunk
      lastNode := lastNode'
      trace := st.trace ++ [UpCase.structural] }
  else
    -- 3./4. mismatch: schedule the previous un-keyed, different-markup
    -- chunk's nodes for removal and queue this chunk into the
    -- accumulating sub-partial.
    let st :=
      match prev? with
      | some pv =>
          if chunk.html ≠ pv.html ∧ pv.key = 0 then
            { st with toRemove := st.toRemove ++ pv.dom }
          else st
      | none => st
    let st := if st.sub.l = 0 then { st with startChunking := index } else st
    let r := partialAdd st.descs st.sub chunk.tpl
    { st with
      descs := r.1
      sub := r.2
      trace := st.trace ++ [UpCase.rebuild] }

/-- The `chunks.forEach(...)` loop of `_up` over the enumerated new
chunk list. -/
def upScan (parseNodes : String → Nat) (prevs : List Chunk) (st0 : UpState)
    (chunks0 : List Chunk) : UpState :=
  chunks0.enum.foldl (upStep parseNodes prevs) st0

/-- Result of one `partial._up()` run. -/
structure UpResult where
  container : List DomNode
  descs : DescStore
  fresh : Nat
  partialState : PartialSt
  removed : List Nat
  trace : List UpCase

/-- `partial._up()` (lines 622-695).  `none` models the `TypeError`
JS raises on `previousChunks[0].dom[0]` when nothing was rendered
before.  Otherwise: place the cursor on the first previous node, add
an (already-materialized comment) placeholder chunk if the update is
empty, run the reconciliation loop, close any open sub-partial, sweep
the render-group-tagged trailing siblings after the cursor into the
removal list, remove all collected nodes from the container, and
`reset()`. -/
def partial_up (parseNodes : String → Nat) (P : PartialSt)
    (descs : DescStore) (container : List DomNode) (fresh : Nat) :
    Option UpResult :=
  match P.previousChunks.head? with
  | none => none
  | some p0 =>
    let lastNode0 := (p0.dom.head?).getD 0
    let cf : List Chunk × Nat :=
      if P.chunks.isEmpty then ([placeholderChunk (some fresh)], fresh + 1)
      else (P.chunks, fresh)
    let st0 : UpState :=
      { container := container
        chunks := cf.1
        descs := descs
        fresh := cf.2
        toRemove := []
        lastNode := lastNode0
        startChunking := 0
        sub := emptyPartial
        trace := [] }
    let st1 := upScan parseNodes P.previousChunks st0 cf.1
    let st2 := closeSubPartial parseNodes st1
    let trailing :=
      ((nodesAfter st2.container st2.lastNode).takeWhile
        (fun n => n.tagged)).map (fun n => n.id)
    let toRemove := st2.toRemove ++ trailing
    let container' := st2.container.filter (fun n => !(toRemove.contains n.id))
    some { container := container'
           descs := st2.descs
           fresh := st2.fresh
           partialState := { P with
             html := ""
             chunks := []
             previousChunks := st2.chunks
             exprsE := []
             l := 0 }
           removed := toRemove
           trace := st2.trace }

/-- The per-index decision rule stated by C2 (amended): (1) a keyed
chunk with materialized nodes, else (2) a structural match against the
same-index un-keyed previous chunk, else (3) rebuild — position in the
list is the sole input besides the two chunks themselves. -/
def upAction (chunk : Chunk) (prev? : Option Chunk) : UpCase :=
  if chunk.key ≠ 0 ∧ chunk.dom ≠ [] then .keyed
  else if (match prev? with
           | some pv => chunk.html == pv.html && pv.key == 0
           | none => false) then .structural
  else .rebuild

/-- The nodes rule (3) schedules for removal, per the amended C2: the
same-index previous chunk's nodes, only when that chunk exists, is
un-keyed and its markup differs. -/
def schedRemoval (chunk : Chunk) (prev? : Option Chunk) : List Nat :=
  if upAction chunk prev? = .rebuild then
    match prev? with
    | some pv => if chunk.html ≠ pv.html ∧ pv.key = 0 then pv.dom else []
    | none => []
  else []

/-! ## Theorems

The claim theorems and their supporting lemmas, in the order of the
components above. -/

/-! Queue-state invariants used for the batching theorem. -/

theorem setAdd_mem {α : Type} [DecidableEq α] (s : List α) (x y : α)
    (h : y ∈ s) : y ∈ setAdd s x := by
  by_cases hx : x ∈ s <;> simp [setAdd, hx, h]

theorem setAdd_self_mem {α : Type} [DecidableEq α] (s : List α) (x : α) :
    x ∈ setAdd s x := by
  by_cases hx : x ∈ s <;> simp [setAdd, hx]

theorem setAdd_nodup {α : Type} [DecidableEq α] (s : List α) (x : α)
    (h : s.Nodup) : (setAdd s x).Nodup := by
  by_cases hx : x ∈ s
  · simpa [setAdd, hx] using h
  · simp [setAdd, hx, List.nodup_append, h]

theorem queueCb_mem {γ : Type} [DecidableEq γ] (st : QState γ) (fn w : γ)
    (h : w ∈ st.queueStack) : w ∈ (queueCb st fn).queueStack :=
  setAdd_mem _ _ _ h

theorem queueCb_nodup {γ : Type} [DecidableEq γ] (st : QState γ) (fn : γ)
    (h : st.queueStack.Nodup) : (queueCb st fn).queueStack.Nodup :=
  setAdd_nodup _ _ h

theorem foldl_queueCb_mem {γ : Type} [DecidableEq γ] (fns : List γ)
    (st : QState γ) (w : γ) (h : w ∈ st.queueStack) :
    w ∈ (fns.foldl queueCb st).queueStack := by
  induction fns generalizing st with
  | nil => exact h
  | cons f rest ih => exact ih _ (queueCb_mem _ _ _ h)

theorem foldl_queueCb_nodup {γ : Type} [DecidableEq γ] (fns : List γ)
    (st : QState γ) (h : st.queueStack.Nodup) :
    (fns.foldl queueCb st).queueStack.Nodup := by
  induction fns generalizing st with
  | nil => exact h
  | cons f rest ih => exact ih _ (queueCb_nodup _ _ h)

theorem runMutation_mem {γ : Type} [DecidableEq γ] (observers : Nat → List γ)
    (s : TurnState γ) (m : Nat × Int) (w : γ) (h : w ∈ s.q.queueStack) :
    w ∈ (runMutation observers s m).q.queueStack := by
  unfold runMutation
  by_cases hne : s.store m.1 ≠ m.2
  · simpa [hne] using foldl_queueCb_mem _ _ _ h
  · simpa [hne] using h

theorem runMutation_nodup {γ : Type} [DecidableEq γ] (observers : Nat → List γ)
    (s : TurnState γ) (m : Nat × Int) (h : s.q.queueStack.Nodup) :
    (runMutation observers s m).q.queueStack.Nodup := by
  unfold runMutation
  by_cases hne : s.store m.1 ≠ m.2
  · simpa [hne] using foldl_queueCb_nodup _ _ h
  · simpa [hne] using h

theorem runTurn_mem {γ : Type} [DecidableEq γ] (observers : Nat → List γ)
    (muts : List (Nat × Int)) (s : TurnState γ) (w : γ)
    (h : w ∈ s.q.queueStack) :
    w ∈ (runTurn observers muts s).q.queueStack := by
  induction muts generalizing s with
  | nil => exact h
  | cons m rest ih => exact ih _ (runMutation_mem _ _ _ _ h)

theorem runTurn_nodup {γ : Type} [DecidableEq γ] (observers : Nat → List γ)
    (muts : List (Nat × Int)) (s : TurnState γ) (h : s.q.queueStack.Nodup) :
    (runTurn observers muts s).q.queueStack.Nodup := by
  induction muts generalizing s with
  | nil => exact h
  | cons m rest ih => exact ih _ (runMutation_nodup _ _ _ h)

theorem count_eq_one_of_nodup_mem {α : Type} [DecidableEq α] (l : List α)
    (x : α) (hn : l.Nodup) (hm : x ∈ l) : l.count x = 1 :=
  List.count_eq_one_of_mem hn hm

theorem foldl_queueCb_mem_of_mem {γ : Type} [DecidableEq γ] (fns : List γ)
    (st : QState γ) (w : γ) (h : w ∈ fns) :
    w ∈ (fns.foldl queueCb st).queueStack := by
  induction fns generalizing st with
  | nil => cases h
  | cons f rest ih =>
      rcases List.mem_cons.mp h with heq | h'
      · simp only [List.foldl_cons]
        apply foldl_queueCb_mem
        rw [heq]
        exact setAdd_self_mem st.queueStack f
      · exact ih _ h'

/-- After a turn's first write changes a dependency of `w`, the stack
holds `w` exactly once. -/
theorem turn_stack_count (observers : Nat → List Nat) (k : Nat) (v : Int)
    (rest : List (Nat × Int)) (s0 : TurnState Nat) (w : Nat)
    (hidle : s0.q.queueStack = [])
    (hsub : w ∈ observers k)
    (hchange : s0.store k ≠ v) :
    (runTurn observers ((k, v) :: rest) s0).q.queueStack.count w = 1 := by
  have h1 : w ∈ (runMutation observers s0 (k, v)).q.queueStack := by
    unfold runMutation
    simp only [hchange, ne_eq, not_false_iff, if_pos]
    exact foldl_queueCb_mem_of_mem _ _ _ hsub
  have hn1 : (runMutation observers s0 (k, v)).q.queueStack.Nodup :=
    runMutation_nodup _ _ _ (by simp [hidle])
  have hm : w ∈ (runTurn observers ((k, v) :: rest) s0).q.queueStack := by
    simpa [runTurn] using runTurn_mem observers rest _ w h1
  have hn : (runTurn observers ((k, v) :: rest) s0).q.queueStack.Nodup := by
    simpa [runTurn] using runTurn_nodup observers rest _ hn1
  exact count_eq_one_of_nodup_mem _ _ hn hm

theorem filter_fst_map_eq_singleton (g : Nat → Int) (l : List Nat) (w : Nat)
    (hn : l.Nodup) (hm : w ∈ l) :
    (l.map (fun x => (x, g x))).filter (fun e => e.1 = w) = [(w, g w)] := by
  induction l with
  | nil => cases hm
  | cons a rest ih =>
      by_cases hax : a = w
      · have haw : w ∈ [a] := by simp [hax]
        have hanr : a ∉ rest := (List.nodup_cons.mp hn).1
        have hrest : (rest.map (fun x => (x, g x))).filter (fun e => e.1 = w) = [] := by
          apply List.filter_eq_nil_iff.mpr
          intro e he
          rcases List.mem_map.mp he with ⟨x, hx, rfl⟩
          have hxw : x ≠ w := by
            intro h
            exact hanr (by rw [hax, ← h]; exact hx)
          simpa using hxw
        simp [List.filter_cons, hax, hrest]
      · have hm' : w ∈ rest := by
          rcases List.mem_cons.mp hm with h | h
          · exact absurd h.symm hax
          · exact h
        simp [List.filter_cons, hax, ih (List.nodup_cons.mp hn).2 hm']

/-- C1: if several dependencies of a Watch are mutated within one
synchronous turn, the Watch is enqueued exactly once (duplicate
enqueues collapse, because `queueStack` is a set), and the single
re-evaluation performed by the deferred `executeQueue` runs after the
whole turn and observes the post-mutation store. -/
theorem watch_batching_once (observers : Nat → List Nat)
    (watchEval : Nat → (Nat → Int) → Int) (k : Nat) (v : Int)
    (rest : List (Nat × Int)) (s0 : TurnState Nat) (w : Nat)
    (hidle : s0.q.queueStack = [])
    (hsub : w ∈ observers k)
    (hchange : s0.store k ≠ v) :
    (runTurn observers ((k, v) :: rest) s0).q.queueStack.count w = 1 ∧
    (executeQueueRun watchEval (runTurn observers ((k, v) :: rest) s0)).1.filter
        (fun e => e.1 = w) =
      [(w, watchEval w (runTurn observers ((k, v) :: rest) s0).store)] := by
  have h1 : w ∈ (runMutation observers s0 (k, v)).q.queueStack := by
    unfold runMutation
    simp only [hchange, ne_eq, not_false_iff, if_pos]
    exact foldl_queueCb_mem_of_mem _ _ _ hsub
  have hn1 : (runMutation observers s0 (k, v)).q.queueStack.Nodup :=
    runMutation_nodup _ _ _ (by simp [hidle])
  have hm : w ∈ (runTurn observers ((k, v) :: rest) s0).q.queueStack := by
    simpa [runTurn] using runTurn_mem observers rest _ w h1
  have hn : (runTurn observers ((k, v) :: rest) s0).q.queueStack.Nodup := by
    simpa [runTurn] using runTurn_nodup observers rest _ hn1
  refine ⟨count_eq_one_of_nodup_mem _ _ hn hm, ?_⟩
  exact filter_fst_map_eq_singleton
    (fun x => watchEval x (runTurn observers ((k, v) :: rest) s0).store) _ _ hn hm

/-- Witness for C1: watch `7` reads properties `0`,`1`,`2`; all three
are mutated in one turn; the queue holds `7` once and the flush
re-evaluates it once, seeing the post-mutation values `5+6+9 = 20`. -/
theorem watch_batching_once_witness :
    (runTurn (fun _ => [7]) [(0, 5), (1, 6), (2, 9)]
        ⟨fun _ => 0, ⟨[], false⟩⟩).q.queueStack.count 7 = 1 ∧
    (executeQueueRun (fun _ st => st 0 + st 1 + st 2)
        (runTurn (fun _ => [7]) [(0, 5), (1, 6), (2, 9)]
          ⟨fun _ => 0, ⟨[], false⟩⟩)).1.filter (fun e => e.1 = 7) =
      [(7, (fun (_ : Nat) (st : Nat → Int) => st 0 + st 1 + st 2) 7
            (runTurn (fun _ => [7]) [(0, 5), (1, 6), (2, 9)]
              ⟨fun _ => 0, ⟨[], false⟩⟩).store)] :=
  watch_batching_once (fun _ => [7]) (fun _ st => st 0 + st 1 + st 2)
    0 5 [(1, 6), (2, 9)] ⟨fun _ => 0, ⟨[], false⟩⟩ 7 rfl (by decide) (by decide)

theorem mem_setDelete {α : Type} [DecidableEq α] (s : List α) (x y : α) :
    y ∈ setDelete s x ↔ y ∈ s ∧ y ≠ x := by
  simp [setDelete]

theorem mem_setAdd {α : Type} [DecidableEq α] (s : List α) (x y : α) :
    y ∈ setAdd s x ↔ y ∈ s ∨ y = x := by
  by_cases hx : x ∈ s
  · simp only [setAdd, if_pos hx]
    constructor
    · exact Or.inl
    · rintro (h | rfl) <;> assumption
  · simp [setAdd, hx]

theorem mem_applyWatchActions_unsubs (L : List (Nat × String))
    (subs : List (Nat × String)) (pr : Nat × String) :
    pr ∈ applyWatchActions subs (L.map (fun q => WatchAction.unsub q.1 q.2)) ↔
      pr ∈ subs ∧ ¬ pr ∈ L := by
  induction L generalizing subs with
  | nil => simp [applyWatchActions]
  | cons q rest ih =>
      simp only [List.map_cons, applyWatchActions, List.foldl_cons] at *
      rw [ih]
      simp only [applyWatchAction, mem_setDelete, List.mem_cons]
      constructor
      · rintro ⟨⟨h1, h2⟩, h3⟩
        exact ⟨h1, by rintro (rfl | h) <;> [exact h2 rfl; exact h3 h]⟩
      · rintro ⟨h1, h2⟩
        exact ⟨⟨h1, fun h => h2 (Or.inl h)⟩, fun h => h2 (Or.inr h)⟩

theorem mem_applyWatchActions_subs (L : List (Nat × String))
    (subs : List (Nat × String)) (pr : Nat × String) :
    pr ∈ applyWatchActions subs (L.map (fun q => WatchAction.sub q.1 q.2)) ↔
      pr ∈ subs ∨ pr ∈ L := by
  induction L generalizing subs with
  | nil => simp [applyWatchActions]
  | cons q rest ih =>
      simp only [List.map_cons, applyWatchActions, List.foldl_cons] at *
      rw [ih]
      simp only [applyWatchAction, mem_setAdd, List.mem_cons]
      tauto

theorem mem_depPairs (m : DepMap) (pr : Nat × String) :
    pr ∈ depPairs m ↔ ∃ e ∈ m, e.1 = pr.1 ∧ pr.2 ∈ e.2 := by
  induction m with
  | nil => simp [depPairs]
  | cons e rest ih =>
      simp only [depPairs, List.foldr_cons, List.mem_append, List.mem_map] at *
      rw [ih]
      constructor
      · rintro (⟨p, hp, rfl⟩ | ⟨e', he', h1, h2⟩)
        · exact ⟨e, List.mem_cons_self _ _, rfl, hp⟩
        · exact ⟨e', List.mem_cons_of_mem _ he', h1, h2⟩
      · rintro ⟨e', he', h1, h2⟩
        rcases List.mem_cons.mp he' with rfl | he''
        · exact Or.inl ⟨pr.2, h2, by rw [h1]⟩
        · exact Or.inr ⟨e', he'', h1, h2⟩

theorem lookupDeps_cons (e : Nat × List String) (m : DepMap) (x : Nat) :
    lookupDeps (e :: m) x = if e.1 = x then some e.2 else lookupDeps m x := by
  by_cases h : e.1 = x
  · rw [lookupDeps, List.find?_cons_of_pos _ (by simpa using h)]
    simp [h]
  · rw [lookupDeps, List.find?_cons_of_neg _ (by simpa using h), if_neg h]
    rfl

theorem mem_of_lookupDeps_eq_some (m : DepMap) (x : Nat) (props : List String)
    (h : lookupDeps m x = some props) : (x, props) ∈ m := by
  induction m with
  | nil => simp [lookupDeps] at h
  | cons e rest ih =>
      rw [lookupDeps_cons] at h
      by_cases hx : e.1 = x
      · rw [if_pos hx] at h
        have : (x, props) = e := by
          cases e with
          | mk a b =>
            simp at hx h
            simp [hx, h]
        rw [this]
        exact List.mem_cons_self _ _
      · rw [if_neg hx] at h
        exact List.mem_cons_of_mem _ (ih h)

theorem mem_unsubPairs (cur new : DepMap) (pr : Nat × String) :
    pr ∈ unsubPairs cur new ↔
      ∃ e ∈ cur, e.1 = pr.1 ∧
        pr.2 ∈ (match lookupDeps new e.1 with
                 | some np => e.2.filter (fun p => ¬ p ∈ np)
                 | none => e.2) := by
  induction cur with
  | nil => simp [unsubPairs]
  | cons e rest ih =>
      simp only [unsubPairs, List.foldr_cons, List.mem_append, List.mem_map] at *
      rw [ih]
      constructor
      · rintro (⟨p, hp, rfl⟩ | ⟨e', he', h1, h2⟩)
        · exact ⟨e, List.mem_cons_self _ _, rfl, hp⟩
        · exact ⟨e', List.mem_cons_of_mem _ he', h1, h2⟩
      · rintro ⟨e', he', h1, h2⟩
        rcases List.mem_cons.mp he' with rfl | he''
        · exact Or.inl ⟨pr.2, h2, by rw [h1]⟩
        · exact Or.inr ⟨e', he'', h1, h2⟩

/-- C4: after an evaluation, the Watch's subscription pair set equals
exactly the dependency pairs recorded during that evaluation — every
pair no longer read is unsubscribed, every read pair is subscribed —
and the `after` post-processing step is the last entry of the action
log, strictly after the whole subscription diff. -/
theorem callFn_subscription_state (currentDeps newDeps : DepMap)
    (subs : List (Nat × String)) (hasAfter : Bool)
    (hsubs : ∀ pr, pr ∈ subs ↔ pr ∈ depPairs currentDeps) :
    (∀ pr, pr ∈ applyWatchActions subs
        (callFnActions currentDeps newDeps hasAfter) ↔ pr ∈ depPairs newDeps) ∧
    callFnActions currentDeps newDeps true =
      callFnActions currentDeps newDeps false ++ [WatchAction.applyAfter] := by
  constructor
  · intro pr
    have happ : applyWatchActions subs (callFnActions currentDeps newDeps hasAfter) =
        applyWatchActions
          (applyWatchActions
            (applyWatchActions subs
              ((unsubPairs currentDeps newDeps).map
                (fun q => WatchAction.unsub q.1 q.2)))
            ((depPairs newDeps).map (fun q => WatchAction.sub q.1 q.2)))
          (if hasAfter then [WatchAction.applyAfter] else []) := by
      simp [callFnActions, applyWatchActions, List.foldl_append]
    rw [happ]
    have hafter : ∀ s : List (Nat × String),
        applyWatchActions s (if hasAfter then [WatchAction.applyAfter] else []) = s := by
      intro s
      cases hasAfter <;> simp [applyWatchActions, applyWatchAction]
    rw [hafter, mem_applyWatchActions_subs, mem_applyWatchActions_unsubs,
      mem_unsubPairs, hsubs, mem_depPairs, mem_depPairs]
    constructor
    · rintro (⟨⟨e, he, h1, h2⟩, hnu⟩ | h)
      · by_contra hnew
        apply hnu
        refine ⟨e, he, h1, ?_⟩
        cases hlk : lookupDeps newDeps e.1 with
        | none => exact h2
        | some np =>
            have hnp : ¬ pr.2 ∈ np := by
              intro hmem
              exact hnew ⟨(e.1, np), mem_of_lookupDeps_eq_some _ _ _ hlk,
                h1, hmem⟩
            simp only [List.mem_filter]
            exact ⟨h2, by simpa using hnp⟩
      · exact h
    · intro h
      exact Or.inr h
  · simp [callFnActions]

/-- Witness for C4 at a concrete run: previously read `{1: {a, b}}`,
now reads `{1: {b, c}, 2: {x}}`; the resulting subscription set is
exactly the new pair set and `after` runs last. -/
theorem callFn_subscription_state_witness :
    (∀ pr, pr ∈ applyWatchActions [(1, "a"), (1, "b")]
        (callFnActions [(1, ["a", "b"])] [(1, ["b", "c"]), (2, ["x"])] true) ↔
        pr ∈ depPairs [(1, ["b", "c"]), (2, ["x"])]) ∧
    callFnActions [(1, ["a", "b"])] [(1, ["b", "c"]), (2, ["x"])] true =
      callFnActions [(1, ["a", "b"])] [(1, ["b", "c"]), (2, ["x"])] false ++
        [WatchAction.applyAfter] :=
  callFn_subscription_state [(1, ["a", "b"])] [(1, ["b", "c"]), (2, ["x"])]
    [(1, "a"), (1, "b")] true (fun _ => Iff.rfl)

/-- C8: wrapping a non-object input — any value whose JS `typeof` is
not `'object'`, i.e. scalars (undefined, booleans, numbers, strings;
`null` is excluded because `typeof null === 'object'`) and functions —
returns the input unchanged; `r` is total, so no input is an error. -/
theorem r_nonObject_passthrough (v : JVal)
    (h : typeofIsObject v = false) : rWrap v = v := by
  cases v with
  | undef => rfl
  | nullV => simp [typeofIsObject] at h
  | bool b => rfl
  | num n => rfl
  | str s => rfl
  | func id => rfl
  | obj id fields => simp [typeofIsObject] at h
  | reactive id fields => simp [typeofIsObject] at h

/-- Witness for C8: the number `42` and the function `#5` pass through. -/
theorem r_nonObject_passthrough_witness :
    rWrap (JVal.num 42) = JVal.num 42 ∧ rWrap (JVal.func 5) = JVal.func 5 :=
  ⟨r_nonObject_passthrough (JVal.num 42) rfl,
   r_nonObject_passthrough (JVal.func 5) rfl⟩

/-- C9: wrapping is idempotent — `r(r(x))` returns `r(x)` itself (the
same value/identity), for every input, in particular for every object:
`r(x)` is either already-reactive or a non-object, and `r` returns
such arguments unchanged. -/
theorem r_idempotent (v : JVal) : rWrap (rWrap v) = rWrap v := by
  cases v with
  | undef => rfl
  | nullV => rfl
  | bool b => rfl
  | num n => rfl
  | str s => rfl
  | func id => rfl
  | obj id fields =>
      rw [rWrap]
      by_cases h : isR (.obj id fields) = true
      · rw [if_pos h, rWrap, if_pos h]
      · rw [if_neg h]
        rfl
  | reactive id fields => rfl

/-- C5: for a plain (non-reserved, non-state-transfer) property write,
own-property subscribers are notified with `(newValue, oldValue)` iff
the old and new value differ by identity/value; the immediate parent is
notified at the child's name in the parent iff a parent link exists;
and no other notification (in particular none to a grandparent) is
produced by the trap. -/
theorem setTrap_plain_write (property : String) (old value : JVal)
    (parentLink : Option (String × Nat))
    (hres : ¬ property ∈ depPropsKeys)
    (htr : ¬ (truthy value = true ∧ isR old = true)) :
    ∃ emits, setTrap property old value parentLink = SetOutcome.plain emits ∧
      (Emission.selfEmit property value old ∈ emits ↔
        jsStrictEq old value = false) ∧
      (∀ pid cname, Emission.parentEmit pid cname ∈ emits ↔
        parentLink = some (cname, pid)) ∧
      (∀ e ∈ emits, e = Emission.selfEmit property value old ∨
        ∃ pid cname, parentLink = some (cname, pid) ∧
          e = Emission.parentEmit pid cname) := by
  have htr' : ¬ ((truthy value && isR old) = true) := by
    cases h1 : truthy value <;> cases h2 : isR old <;> simp_all
  refine ⟨(if jsStrictEq old value then [] else
      [Emission.selfEmit property value old]) ++
     (match parentLink with
      | some (childName, parentId) => [Emission.parentEmit parentId childName]
      | none => []), ?_, ?_, ?_, ?_⟩
  · simp only [setTrap]
    rw [if_neg hres, if_neg htr']
  · rcases parentLink with _ | ⟨c, q⟩ <;> cases hsq : jsStrictEq old value <;>
      simp [hsq]
  · intro pid cname
    rcases parentLink with _ | ⟨c, q⟩ <;> cases hsq : jsStrictEq old value <;>
      simp [hsq] <;> constructor <;> intro h <;> simp_all
  · intro e he
    rcases parentLink with _ | ⟨c, q⟩ <;> cases hsq : jsStrictEq old value <;>
      simp [hsq] at he <;> aesop

/-- Witness for C5: a changed write (`1 → 2`) to `"x"` on a proxy
whose parent link is `("child", parent #9)`: the self notification
fires (values differ) and parent #9 is notified at `"child"`. -/
theorem setTrap_plain_write_witness :
    ∃ emits, setTrap "x" (JVal.num 1) (JVal.num 2) (some ("child", 9)) =
        SetOutcome.plain emits ∧
      (Emission.selfEmit "x" (JVal.num 2) (JVal.num 1) ∈ emits ↔
        jsStrictEq (JVal.num 1) (JVal.num 2) = false) ∧
      (∀ pid cname, Emission.parentEmit pid cname ∈ emits ↔
        (some ("child", 9) : Option (String × Nat)) = some (cname, pid)) ∧
      (∀ e ∈ emits, e = Emission.selfEmit "x" (JVal.num 2) (JVal.num 1) ∨
        ∃ pid cname,
          (some ("child", 9) : Option (String × Nat)) = some (cname, pid) ∧
          e = Emission.parentEmit pid cname) :=
  setTrap_plain_write "x" (JVal.num 1) (JVal.num 2) (some ("child", 9))
    (by decide) (by simp [truthy, isR])

mutual
theorem addExpressions_spec : ∀ (sl : Slot) (acc : String × List Nat),
    addExpressions sl acc = (acc.1 ++ slotMarkup sl, acc.2 ++ slotExps sl)
  | .func id, (h, es) => by simp [addExpressions, slotMarkup, slotExps]
  | .arr elems, (h, es) => by
      simp only [addExpressions, slotMarkup, slotExps]
      exact addExpressionsList_spec elems (h, es)
  | .undef, (h, es) => by simp [addExpressions, slotMarkup, slotExps]
  | .lit s, (h, es) => by simp [addExpressions, slotMarkup, slotExps]

theorem addExpressionsList_spec : ∀ (l : List Slot) (acc : String × List Nat),
    addExpressionsList l acc =
      (acc.1 ++ slotMarkupList l, acc.2 ++ slotExpsList l)
  | [], (h, es) => by simp [addExpressionsList, slotMarkupList, slotExpsList]
  | sl :: rest, (h, es) => by
      simp only [addExpressionsList]
      rw [addExpressions_spec sl (h, es), addExpressionsList_spec rest _]
      simp [slotMarkupList, slotExpsList, String.append_assoc]
end

theorem interlaceTemplate_spec (strings : List String) (slots : List Slot)
    (h : String) (es : List Nat) :
    interlaceTemplate strings slots (h, es) =
      (h ++ (interlaceSpec strings slots).1,
       es ++ (interlaceSpec strings slots).2) := by
  induction strings generalizing slots h es with
  | nil => simp [interlaceTemplate, interlaceSpec]
  | cons sv ss ih =>
      cases slots with
      | nil =>
          simp only [interlaceTemplate, interlaceSpec]
          rw [ih]
          simp [String.append_assoc]
      | cons sl rest =>
          cases sl with
          | undef =>
              simp only [interlaceTemplate, interlaceSpec, slotContribution]
              rw [ih]
              simp [String.append_assoc]
          | func id =>
              simp only [interlaceTemplate, interlaceSpec, slotContribution]
              rw [addExpressions_spec, ih]
              simp [String.append_assoc, List.append_assoc]
          | arr elems =>
              simp only [interlaceTemplate, interlaceSpec, slotContribution]
              rw [addExpressions_spec, ih]
              simp [String.append_assoc, List.append_assoc]
          | lit s =>
              simp only [interlaceTemplate, interlaceSpec, slotContribution]
              rw [addExpressions_spec, ih]
              simp [String.append_assoc, List.append_assoc]

/-- C6 counterexample to the claim as stated: a top-level slot whose
value is `undefined` is *skipped* by the `expSlots[i] !== undefined`
guard, not inlined as the literal text `"undefined"` — while the same
value inside an array slot *is* inlined, so "every other slot value is
inlined into the markup as literal text" is false at the top level. -/
theorem t_undefined_slot_not_inlined :
    (tToString ["a", "b"] [Slot.undef]).1 = "ab" ∧
    ¬ (tToString ["a", "b"] [Slot.undef]).1 = "a" ++ "undefined" ++ "b" ∧
    (tToString ["a", "b"] [Slot.arr [Slot.undef]]).1 =
      "a" ++ "undefined" ++ "b" :=
  ⟨rfl, by decide, rfl⟩

/-- C6 (amended): template compilation maps every function-valued slot
to one sentinel token in the markup plus one appended descriptor,
flattens array slots recursively element by element, and inlines every
other slot value as literal text — except that a top-level slot whose
value is `undefined` contributes nothing (array elements that are
`undefined` are still inlined, as the text `"undefined"`); all
left-to-right order is preserved.  (The completely empty template is
excluded: it compiles to the `<!---->` placeholder.) -/
theorem t_compiles_slots (strings : List String) (slots : List Slot)
    (hne : ¬ (slots = [] ∧ strings = [""])) :
    tToString strings slots = interlaceSpec strings slots := by
  unfold tToString
  split
  · exact absurd ⟨rfl, rfl⟩ hne
  · rw [interlaceTemplate_spec]
    simp

/-- Witness for C6 (amended) at a concrete template
`<p>${f3}-${[y, f4]}</p>`. -/
theorem t_compiles_slots_witness :
    tToString ["<p>", "-", "</p>"]
        [Slot.func 3, Slot.arr [Slot.lit "y", Slot.func 4]] =
      interlaceSpec ["<p>", "-", "</p>"]
        [Slot.func 3, Slot.arr [Slot.lit "y", Slot.func 4]] :=
  t_compiles_slots ["<p>", "-", "</p>"]
    [Slot.func 3, Slot.arr [Slot.lit "y", Slot.func 4]]
    (by simp)

/-- C10: `partial.add` ignores `null`, `undefined`, `false` and `''`
(the partial is returned with chunk list, markup, keyed map and count
untouched), while adding the number `0` does append a chunk (and a
bookend to the markup). -/
theorem partialAdd_falsy_noop (descs : DescStore) (P : PartialSt) :
    partialAdd descs P AddVal.nullV = (descs, P) ∧
    partialAdd descs P AddVal.undef = (descs, P) ∧
    partialAdd descs P (AddVal.bool false) = (descs, P) ∧
    partialAdd descs P (AddVal.str "") = (descs, P) ∧
    (partialAdd descs P (AddVal.num 0)).2.chunks.length = P.chunks.length + 1 ∧
    (partialAdd descs P (AddVal.num 0)).2.l = P.l + 1 ∧
    (partialAdd descs P (AddVal.num 0)).2.html = P.html ++ "" ++ bookendComment := by
  refine ⟨rfl, rfl, rfl, ?_, ?_, ?_, ?_⟩ <;>
    simp [partialAdd, addSkips, addValFalsy]

/-! Helper lemmas about `_up`'s building blocks. -/

theorem closeSubPartial_l0 (parseNodes : String → Nat) (st : UpState)
    (h : st.sub.l = 0) : closeSubPartial parseNodes st = st := by
  unfold closeSubPartial
  rw [if_pos h]

theorem closeSubPartial_trace_toRemove (parseNodes : String → Nat)
    (st : UpState) :
    (closeSubPartial parseNodes st).trace = st.trace ∧
    (closeSubPartial parseNodes st).toRemove = st.toRemove ∧
    (closeSubPartial parseNodes st).descs = st.descs := by
  unfold closeSubPartial
  by_cases h : st.sub.l = 0 <;> simp [h]

theorem nodesAfter_concat (front : List DomNode) (x : DomNode)
    (rest : List DomNode) (hx : ∀ n ∈ front, n.id ≠ x.id) :
    nodesAfter (front ++ [x] ++ rest) x.id = rest := by
  induction front with
  | nil => simp [nodesAfter]
  | cons f fs ih =>
      have hf : f.id ≠ x.id := hx f (List.mem_cons_self _ _)
      have := ih (fun n hn => hx n (List.mem_cons_of_mem _ hn))
      simpa [nodesAfter, List.dropWhile_cons, hf] using this

theorem takeWhile_tagged_all (l : List DomNode)
    (h : ∀ n ∈ l, n.tagged = true) :
    l.takeWhile (fun n => n.tagged) = l := by
  induction l with
  | nil => rfl
  | cons n rest ih =>
      have hn : n.tagged = true := h n (List.mem_cons_self _ _)
      simp [List.takeWhile_cons, hn,
        ih (fun m hm => h m (List.mem_cons_of_mem _ hm))]

theorem rebindFold_untouched (pairs : List (Nat × Nat)) (ds : DescStore)
    (d : Nat) (hd : ∀ q ∈ pairs, q.1 ≠ d) :
    (pairs.foldl (fun ds q => descUp ds q.1 ((ds q.2).e)) ds) d = ds d := by
  induction pairs generalizing ds with
  | nil => rfl
  | cons q rest ih =>
      simp only [List.foldl_cons]
      rw [ih _ (fun q' hq' => hd q' (List.mem_cons_of_mem _ hq'))]
      simp [descUp, Ne.symm (hd q (List.mem_cons_self _ _))]

theorem rebindFold_pointwise (pairs : List (Nat × Nat)) (ds : DescStore)
    (hnd : (pairs.map Prod.fst).Nodup)
    (hdisj : ∀ q ∈ pairs, ∀ q' ∈ pairs, q.2 ≠ q'.1) :
    ∀ q ∈ pairs,
      (pairs.foldl (fun ds q => descUp ds q.1 ((ds q.2).e)) ds) q.1 =
        ⟨(ds q.2).e, (ds q.1).notifs + 1⟩ := by
  induction pairs generalizing ds with
  | nil => intro q hq; cases hq
  | cons q0 rest ih =>
      rw [List.map_cons] at hnd
      have h0nr : q0.1 ∉ rest.map Prod.fst := (List.nodup_cons.mp hnd).1
      have hndr : (rest.map Prod.fst).Nodup := (List.nodup_cons.mp hnd).2
      intro q hq
      simp only [List.foldl_cons]
      rcases List.mem_cons.mp hq with heq | hmem
      · subst heq
        rw [rebindFold_untouched rest _ q.1
          (fun q' hq' h => h0nr (h ▸ List.mem_map.mpr ⟨q', hq', rfl⟩))]
        simp [descUp]
      · have hq2 : q.2 ≠ q0.1 :=
          hdisj q (List.mem_cons_of_mem _ hmem) q0 (List.mem_cons_self _ _)
        have hq1 : q.1 ≠ q0.1 := by
          intro h
          exact h0nr (h ▸ List.mem_map.mpr ⟨q, hmem, rfl⟩)
        have := ih (descUp ds q0.1 ((ds q0.2).e)) hndr
          (fun a ha a' ha' => hdisj a (List.mem_cons_of_mem _ ha)
            a' (List.mem_cons_of_mem _ ha')) q hmem
        rw [this]
        simp [descUp, hq1, hq2]

theorem upAction_eq_keyed (chunk : Chunk) (prev? : Option Chunk)
    (h : chunk.key ≠ 0 ∧ chunk.dom ≠ []) :
    upAction chunk prev? = .keyed := by
  simp [upAction, h]

theorem upAction_eq_structural (chunk : Chunk) (prev? : Option Chunk)
    (h1 : ¬ (chunk.key ≠ 0 ∧ chunk.dom ≠ []))
    (h2 : (match prev? with
           | some pv => chunk.html == pv.html && pv.key == 0
           | none => false) = true) :
    upAction chunk prev? = .structural := by
  simp [upAction, h1, h2]

theorem upAction_eq_rebuild (chunk : Chunk) (prev? : Option Chunk)
    (h1 : ¬ (chunk.key ≠ 0 ∧ chunk.dom ≠ []))
    (h2 : ¬ (match prev? with
             | some pv => chunk.html == pv.html && pv.key == 0
             | none => false) = true) :
    upAction chunk prev? = .rebuild := by
  simp [upAction, h1, h2]

theorem upStep_trace_toRemove (parseNodes : String → Nat)
    (prevs : List Chunk) (st : UpState) (p : Nat × Chunk) :
    (upStep parseNodes prevs st p).trace =
      st.trace ++ [upAction p.2 prevs[p.1]?] ∧
    (upStep parseNodes prevs st p).toRemove =
      st.toRemove ++ schedRemoval p.2 prevs[p.1]? := by
  have hc := closeSubPartial_trace_toRemove parseNodes st
  by_cases h1 : p.2.key ≠ 0 ∧ p.2.dom ≠ []
  · unfold upStep schedRemoval
    simp [h1, hc.1, hc.2.1, upAction_eq_keyed p.2 prevs[p.1]? h1]
  · by_cases h2 : (match prevs[p.1]? with
        | some pv => p.2.html == pv.html && pv.key == 0
        | none => false) = true
    · unfold upStep schedRemoval
      simp [h1, h2, hc.1, hc.2.1,
        upAction_eq_structural p.2 prevs[p.1]? h1 h2]
    · unfold upStep schedRemoval
      rw [upAction_eq_rebuild p.2 prevs[p.1]? h1 h2]
      cases hp : prevs[p.1]? with
      | none =>
          by_cases h4 : st.sub.l = 0 <;> simp [h1, h2, hp, h4]
      | some pv =>
          rw [hp] at h2
          simp only [Bool.and_eq_true, beq_iff_eq, not_and] at h2
          have hcond : ¬ (p.2.html = pv.html ∧ pv.key = 0) :=
            fun hh => h2 hh.1 hh.2
          by_cases h3 : p.2.html ≠ pv.html ∧ pv.key = 0 <;>
            by_cases h4 : st.sub.l = 0 <;>
              simp [h1, hcond, h3, h4, hp]

theorem upScan_trace_toRemove (parseNodes : String → Nat)
    (prevs : List Chunk) :
    ∀ (l : List (Nat × Chunk)) (st : UpState),
      (l.foldl (upStep parseNodes prevs) st).trace =
        st.trace ++ l.map (fun p => upAction p.2 prevs[p.1]?) ∧
      (l.foldl (upStep parseNodes prevs) st).toRemove =
        st.toRemove ++
          (l.map (fun p => schedRemoval p.2 prevs[p.1]?)).flatten := by
  intro l
  induction l with
  | nil => intro st; simp
  | cons p rest ih =>
      intro st
      simp only [List.foldl_cons, List.map_cons, List.flatten]
      have hstep := upStep_trace_toRemove parseNodes prevs st p
      have := ih (upStep parseNodes prevs st p)
      rw [this.1, this.2, hstep.1, hstep.2]
      simp [List.append_assoc]

/-- C2 (amended): in the reconciliation loop of `partial._up`, every
index of the new chunk list is classified by the strict three-case
rule `upAction` — keyed-reuse strictly before structural-match
strictly before rebuild — whose only inputs are the new chunk and the
same-index previous chunk (position is the sole disambiguator, with no
cross-index matching); and the nodes scheduled for removal during the
scan are exactly, per index, those of a same-index previous chunk that
exists, is un-keyed, and whose markup differs from the new chunk's
(rule 3 leaves keyed previous chunks' nodes unscheduled). -/
theorem up_scan_strict_order (parseNodes : String → Nat)
    (prevs chunks0 : List Chunk) (st0 : UpState)
    (ht : st0.trace = []) (hr : st0.toRemove = []) :
    (upScan parseNodes prevs st0 chunks0).trace =
      chunks0.enum.map (fun p => upAction p.2 prevs[p.1]?) ∧
    (upScan parseNodes prevs st0 chunks0).toRemove =
      (chunks0.enum.map (fun p => schedRemoval p.2 prevs[p.1]?)).flatten := by
  have := upScan_trace_toRemove parseNodes prevs chunks0.enum st0
  unfold upScan
  rw [this.1, this.2, ht, hr]
  simp

/-- Witness for C2 (amended), on the scan that reconciles previous
chunks `[K (keyed, "x", nodes [1])]` with new chunks
`[Y (un-keyed, "y"), K (keyed, nodes [1])]`: index 0 is classified
rebuild, index 1 keyed-reuse, and no node at all is scheduled for
removal during the scan (the keyed previous chunk is exempt). -/
theorem up_scan_strict_order_witness :
    (upScan (fun _ => 1)
      [{ html := "x", exp := [], dom := [1], tpl := .tpl "x" [] 1, key := 1 }]
      { container := [{ id := 1, tagged := true, isText := false, val := "" }]
        chunks := [{ html := "y", exp := [], dom := [], tpl := .tpl "y" [] 0,
                     key := 0 },
                   { html := "x", exp := [], dom := [1], tpl := .tpl "x" [] 1,
                     key := 1 }]
        descs := fun _ => ⟨0, 0⟩
        fresh := 10
        toRemove := []
        lastNode := 1
        startChunking := 0
        sub := emptyPartial
        trace := [] }
      [{ html := "y", exp := [], dom := [], tpl := .tpl "y" [] 0, key := 0 },
       { html := "x", exp := [], dom := [1], tpl := .tpl "x" [] 1,
         key := 1 }]).trace =
      ([({ html := "y", exp := [], dom := [], tpl := .tpl "y" [] 0,
           key := 0 } : Chunk),
        { html := "x", exp := [], dom := [1], tpl := .tpl "x" [] 1,
          key := 1 }].enum.map
        (fun p => upAction p.2
          [({ html := "x", exp := [], dom := [1], tpl := .tpl "x" [] 1,
              key := 1 } : Chunk)][p.1]?)) ∧
    (upScan (fun _ => 1)
      [{ html := "x", exp := [], dom := [1], tpl := .tpl "x" [] 1, key := 1 }]
      { container := [{ id := 1, tagged := true, isText := false, val := "" }]
        chunks := [{ html := "y", exp := [], dom := [], tpl := .tpl "y" [] 0,
                     key := 0 },
                   { html := "x", exp := [], dom := [1], tpl := .tpl "x" [] 1,
                     key := 1 }]
        descs := fun _ => ⟨0, 0⟩
        fresh := 10
        toRemove := []
        lastNode := 1
        startChunking := 0
        sub := emptyPartial
        trace := [] }
      [{ html := "y", exp := [], dom := [], tpl := .tpl "y" [] 0, key := 0 },
       { html := "x", exp := [], dom := [1], tpl := .tpl "x" [] 1,
         key := 1 }]).toRemove =
      ([({ html := "y", exp := [], dom := [], tpl := .tpl "y" [] 0,
           key := 0 } : Chunk),
        { html := "x", exp := [], dom := [1], tpl := .tpl "x" [] 1,
          key := 1 }].enum.map
        (fun p => schedRemoval p.2
          [({ html := "x", exp := [], dom := [1], tpl := .tpl "x" [] 1,
              key := 1 } : Chunk)][p.1]?)).flatten :=
  up_scan_strict_order (fun _ => 1) _ _ _ rfl rfl

/-- C2 counterexample to the claim as stated: reconciling previous
chunks `[K]` — `K` keyed with markup `"x"` and materialized node `1` —
against new chunks `[Y, K]` with `Y` un-keyed of different markup
`"y"`.  Index 0 falls to rule (3) (trace starts `rebuild`), yet the
previous chunk's node `1` is *not* scheduled for removal: the update
finishes with `removed = []` and node `1` still present (relocated
after the freshly rendered node `10`), because rule (3) only schedules
un-keyed previous chunks — the keyed node must survive for the
keyed-reuse at index 1. -/
theorem up_rule3_keyed_prev_not_removed :
    ((partial_up (fun _ => 1)
        { html := ""
          chunks := [{ html := "y", exp := [], dom := [], tpl := .tpl "y" [] 0,
                       key := 0 },
                     { html := "x", exp := [], dom := [1],
                       tpl := .tpl "x" [] 1, key := 1 }]
          previousChunks := [{ html := "x", exp := [], dom := [1],
                               tpl := .tpl "x" [] 1, key := 1 }]
          keyed := [(1, { html := "x", exp := [], dom := [1],
                          tpl := .tpl "x" [] 1, key := 1 })]
          exprsE := []
          l := 2 }
        (fun _ => ⟨0, 0⟩)
        [{ id := 1, tagged := true, isText := false, val := "" }]
        10).map
      (fun r => (r.trace, r.container.map (fun n => n.id), r.removed))) =
      some ([UpCase.rebuild, UpCase.keyed], [10, 1], []) := rfl

theorem upStep_structural_eq (parseNodes : String → Nat) (prevs : List Chunk)
    (st : UpState) (index : Nat) (chunk pv : Chunk)
    (hp : prevs[index]? = some pv)
    (h1 : ¬ (chunk.key ≠ 0 ∧ chunk.dom ≠ []))
    (hh : chunk.html = pv.html) (hk : pv.key = 0)
    (hsub : st.sub.l = 0)
    (htpl : isTplB chunk.tpl = true) :
    upStep parseNodes prevs st (index, chunk) =
      { st with
        descs := (pv.exp.zip chunk.exp).foldl
          (fun ds q => descUp ds q.1 ((ds q.2).e)) st.descs
        chunks := st.chunks.set index { chunk with exp := pv.exp, dom := pv.dom }
        lastNode := (pv.dom.getLast?).getD st.lastNode
        trace := st.trace ++ [UpCase.structural] } := by
  unfold upStep
  rw [closeSubPartial_l0 parseNodes st hsub]
  simp [h1, hp, hh, hk, isTextNodeChunkB, htpl]

/-- C3: the structural-match case of reconciliation — one new un-keyed
template chunk whose markup equals the un-keyed previous chunk's —
reuses the previous chunk's materialized nodes with no node
reallocation (`fresh` unchanged, `dom` pointer-equal, DOM container
untouched, nothing removed) and rebinds each previous expression
descriptor to the corresponding new expression function through its
`_up` hook, which fires that descriptor's own change notification
(`notifs` increments) and leaves every other descriptor untouched —
no structural patch of any kind. -/
theorem up_structural_reuse (parseNodes : String → Nat) (P : PartialSt)
    (descs : DescStore) (container : List DomNode) (fresh : Nat) (p c : Chunk)
    (hPC : P.chunks = [c]) (hPP : P.previousChunks = [p])
    (hck : c.key = 0) (hh : c.html = p.html) (hpk : p.key = 0)
    (htpl : isTplB c.tpl = true)
    (hdom : p.dom ≠ [])
    (hcont : container.map (fun n => n.id) = p.dom)
    (hndc : p.dom.Nodup)
    (hlen : p.exp.length = c.exp.length)
    (hnde : p.exp.Nodup)
    (hdisj : ∀ d ∈ p.exp, ¬ d ∈ c.exp) :
    ∃ res, partial_up parseNodes P descs container fresh = some res ∧
      res.trace = [UpCase.structural] ∧
      res.container = container ∧
      res.removed = [] ∧
      res.fresh = fresh ∧
      res.partialState.previousChunks = [{ c with exp := p.exp, dom := p.dom }] ∧
      (∀ j (hj : j < p.exp.length) (hj' : j < c.exp.length),
        res.descs (p.exp.get ⟨j, hj⟩) =
          ⟨(descs (c.exp.get ⟨j, hj'⟩)).e,
           (descs (p.exp.get ⟨j, hj⟩)).notifs + 1⟩) ∧
      (∀ d, ¬ d ∈ p.exp → res.descs d = descs d) := by
  have h1 : ¬ (c.key ≠ 0 ∧ c.dom ≠ []) := by simp [hck]
  -- decompose the container around its final node
  have hcne : container ≠ [] := by
    intro h
    rw [h] at hcont
    exact hdom hcont.symm
  rcases List.eq_nil_or_concat' container with hnil | ⟨front, x, hfx⟩
  · exact absurd hnil hcne
  subst hfx
  have hids : p.dom = front.map (fun n => n.id) ++ [x.id] := by
    rw [← hcont]; simp
  have hlast : (p.dom.getLast?) = some x.id := by
    rw [hids]
    exact List.getLast?_concat _
  have hfront : ∀ n ∈ front, n.id ≠ x.id := by
    intro n hn h
    rw [hids] at hndc
    have hd2 := (List.nodup_append.mp hndc).2.2
    exact hd2 (List.mem_map.mpr ⟨n, hn, h⟩) (by simp)
  have htrail : nodesAfter (front ++ [x]) x.id = [] := by
    have := nodesAfter_concat front x [] hfront
    simpa using this
  -- compute the update
  unfold partial_up upScan
  rw [hPP, hPC]
  have henum : ([c] : List Chunk).enum = [(0, c)] := rfl
  simp only [List.head?_cons, List.isEmpty_cons, Bool.false_eq_true, if_false,
    henum, List.foldl_cons, List.foldl_nil]
  rw [upStep_structural_eq parseNodes [p] _ 0 c p rfl h1 hh hpk rfl htpl]
  rw [closeSubPartial_l0 parseNodes _ rfl]
  simp only [Bool.false_eq_true, if_false, hlast, Option.getD_some]
  rw [htrail]
  simp only [List.takeWhile_nil, List.map_nil, List.append_nil]
  refine ⟨_, rfl, rfl, ?_, rfl, rfl, ?_, ?_, ?_⟩
  · simp
  · simp [List.set]
  · intro j hj hj'
    have hmem : (p.exp.get ⟨j, hj⟩, c.exp.get ⟨j, hj'⟩) ∈ p.exp.zip c.exp := by
      have hjz : j < (p.exp.zip c.exp).length := by
        simp [List.length_zip]
        omega
      have := @List.get_zip _ _ p.exp c.exp ⟨j, hjz⟩
      rw [← this]
      exact List.get_mem _ _ _
    have := rebindFold_pointwise (p.exp.zip c.exp) descs
      (by rw [List.map_fst_zip p.exp c.exp (le_of_eq hlen)]; exact hnde)
      (by
        intro q hq q' hq'
        have hq2 : q.2 ∈ c.exp := (List.of_mem_zip hq).2
        have hq1 : q'.1 ∈ p.exp := (List.of_mem_zip hq').1
        intro h
        exact hdisj q'.1 hq1 (h ▸ hq2))
      _ hmem
    simpa using this
  · intro d hd
    refine rebindFold_untouched _ _ _ ?_
    intro q hq h
    have : q.1 ∈ p.exp := by
      have := (List.of_mem_zip hq).1
      exact this
    exact hd (h ▸ this)

/-- Witness for C3: previous chunk `p` (markup `"m"`, descriptors
`[5,6]`, nodes `[1,2]`) reconciled against new chunk `c` (same markup,
descriptors `[7,8]`): nodes are reused as-is, descriptors `5`,`6` are
rebound with one notification each, and nothing else changes. -/
theorem up_structural_reuse_witness :
    ∃ res, partial_up (fun _ => 1)
        { html := ""
          chunks := [{ html := "m", exp := [7, 8], dom := [],
                       tpl := .tpl "m" [7, 8] 0, key := 0 }]
          previousChunks := [{ html := "m", exp := [5, 6], dom := [1, 2],
                               tpl := .tpl "m" [5, 6] 0, key := 0 }]
          keyed := []
          exprsE := []
          l := 1 }
        (fun j => ⟨j * 10, 0⟩)
        [{ id := 1, tagged := true, isText := false, val := "" },
         { id := 2, tagged := true, isText := false, val := "" }]
        100 = some res ∧
      res.trace = [UpCase.structural] ∧
      res.container =
        [{ id := 1, tagged := true, isText := false, val := "" },
         { id := 2, tagged := true, isText := false, val := "" }] ∧
      res.removed = [] ∧
      res.fresh = 100 ∧
      res.partialState.previousChunks =
        [{ html := "m", exp := [5, 6], dom := [1, 2],
           tpl := .tpl "m" [7, 8] 0, key := 0 }] ∧
      (∀ j (hj : j < ([5, 6] : List Nat).length)
          (hj' : j < ([7, 8] : List Nat).length),
        res.descs (([5, 6] : List Nat).get ⟨j, hj⟩) =
          ⟨((fun j => (⟨j * 10, 0⟩ : Desc)) (([7, 8] : List Nat).get ⟨j, hj'⟩)).e,
           ((fun j => (⟨j * 10, 0⟩ : Desc)) (([5, 6] : List Nat).get ⟨j, hj⟩)).notifs + 1⟩) ∧
      (∀ d, ¬ d ∈ ([5, 6] : List Nat) →
        res.descs d = (fun j => (⟨j * 10, 0⟩ : Desc)) d) :=
  up_structural_reuse (fun _ => 1) _ (fun j => ⟨j * 10, 0⟩) _ 100
    { html := "m", exp := [5, 6], dom := [1, 2], tpl := .tpl "m" [5, 6] 0,
      key := 0 }
    { html := "m", exp := [7, 8], dom := [], tpl := .tpl "m" [7, 8] 0,
      key := 0 }
    rfl rfl rfl rfl rfl rfl (by decide) rfl (by decide) rfl (by decide)
    (by decide)

theorem filter_not_contains_of_disjoint (l : List DomNode) (ids : List Nat)
    (h : ∀ n ∈ l, ¬ n.id ∈ ids) :
    l.filter (fun n => !(ids.contains n.id)) = l := by
  induction l with
  | nil => rfl
  | cons n rest ih =>
      have hn := h n (List.mem_cons_self _ _)
      simp only [List.filter_cons]
      rw [ih (fun m hm => h m (List.mem_cons_of_mem _ hm))]
      simp [hn]

theorem filter_not_contains_self (l : List DomNode) (ids : List Nat)
    (h : ∀ n ∈ l, n.id ∈ ids) :
    l.filter (fun n => !(ids.contains n.id)) = [] := by
  induction l with
  | nil => rfl
  | cons n rest ih =>
      have hn := h n (List.mem_cons_self _ _)
      simp only [List.filter_cons]
      rw [ih (fun m hm => h m (List.mem_cons_of_mem _ hm))]
      simp [hn]

/-- C7: after reconciling three previously rendered chunks down to one
structurally matching chunk, the trailing sweep of `_up` removes
exactly the two trailing render-group-tagged node ranges that no
current chunk claims, and leaves the remaining range intact (same
nodes, same container prefix) and bound (the surviving chunk keeps the
previous chunk's descriptors and nodes); no new node is allocated. -/
theorem up_shrink_trims_trailing (parseNodes : String → Nat) (P : PartialSt)
    (descs : DescStore) (fresh : Nat) (p1 p2 p3 c : Chunk)
    (n1 n2 n3 : List DomNode)
    (hPC : P.chunks = [c]) (hPP : P.previousChunks = [p1, p2, p3])
    (hck : c.key = 0) (hh : c.html = p1.html) (hpk : p1.key = 0)
    (htpl : isTplB c.tpl = true)
    (hd1 : p1.dom ≠ [])
    (hids1 : n1.map (fun n => n.id) = p1.dom)
    (hids2 : n2.map (fun n => n.id) = p2.dom)
    (hids3 : n3.map (fun n => n.id) = p3.dom)
    (htag : ∀ n ∈ n2 ++ n3, n.tagged = true)
    (hnd : ((n1 ++ (n2 ++ n3)).map (fun n => n.id)).Nodup) :
    ∃ res, partial_up parseNodes P descs (n1 ++ (n2 ++ n3)) fresh = some res ∧
      res.trace = [UpCase.structural] ∧
      res.container = n1 ∧
      res.removed = p2.dom ++ p3.dom ∧
      res.fresh = fresh ∧
      res.partialState.previousChunks =
        [{ c with exp := p1.exp, dom := p1.dom }] := by
  have h1 : ¬ (c.key ≠ 0 ∧ c.dom ≠ []) := by simp [hck]
  have hn1ne : n1 ≠ [] := by
    intro h
    rw [h] at hids1
    exact hd1 hids1.symm
  rcases List.eq_nil_or_concat' n1 with hnil | ⟨front, x, hfx⟩
  · exact absurd hnil hn1ne
  subst hfx
  rw [List.map_append, List.map_append] at hnd
  have hnd1 : ((front ++ [x]).map (fun n => n.id)).Nodup := by
    rw [List.map_append]
    exact (List.nodup_append.mp hnd).1
  have hdisj12 := (List.nodup_append.mp hnd).2.2
  have hlast : (p1.dom.getLast?) = some x.id := by
    rw [← hids1]
    simp only [List.map_append]
    exact List.getLast?_concat _
  have hfront : ∀ n ∈ front, n.id ≠ x.id := by
    intro n hn h
    rw [List.map_append] at hnd1
    have hd2 := (List.nodup_append.mp hnd1).2.2
    exact hd2 (List.mem_map.mpr ⟨n, hn, h⟩) (by simp)
  have htrail := nodesAfter_concat front x (n2 ++ n3) hfront
  have htr : (n2 ++ n3).map (fun n => n.id) = p2.dom ++ p3.dom := by
    rw [List.map_append, hids2, hids3]
  have hdisjf : ∀ n ∈ front ++ [x], ¬ n.id ∈ p2.dom ++ p3.dom := by
    intro n hn hmem
    rw [← htr] at hmem
    refine hdisj12 ?_ hmem
    rw [← List.map_append]
    exact List.mem_map.mpr ⟨n, hn, rfl⟩
  have hself : ∀ n ∈ n2 ++ n3, n.id ∈ p2.dom ++ p3.dom := by
    intro n hn
    rw [← htr]
    exact List.mem_map.mpr ⟨n, hn, rfl⟩
  have hfilter : ((front ++ [x]) ++ (n2 ++ n3)).filter
      (fun n => !((p2.dom ++ p3.dom).contains n.id)) = front ++ [x] := by
    rw [List.filter_append,
      filter_not_contains_of_disjoint _ _ hdisjf,
      filter_not_contains_self _ _ hself, List.append_nil]
  unfold partial_up upScan
  rw [hPP, hPC]
  have henum : ([c] : List Chunk).enum = [(0, c)] := rfl
  simp only [List.head?_cons, List.isEmpty_cons, Bool.false_eq_true, if_false,
    henum, List.foldl_cons, List.foldl_nil]
  rw [upStep_structural_eq parseNodes [p1, p2, p3] _ 0 c p1 rfl h1 hh hpk rfl
    htpl]
  rw [closeSubPartial_l0 parseNodes _ rfl]
  simp only [hlast, Option.getD_some]
  rw [htrail, takeWhile_tagged_all _ htag, htr]
  simp only [List.nil_append]
  rw [hfilter]
  refine ⟨_, rfl, by simp, rfl, rfl, rfl, by simp [List.set]⟩

/-- Witness for C7: three rendered chunks (nodes `[1,2]`, `[3,4]`,
`[5,6]`, all tagged) re-rendered down to one structurally matching
chunk: exactly `[3,4,5,6]` are removed, `[1,2]` stay, the surviving
chunk keeps descriptors `[5]` and nodes `[1,2]`, and no node is
allocated. -/
theorem up_shrink_trims_trailing_witness :
    ∃ res, partial_up (fun _ => 1)
        { html := ""
          chunks := [{ html := "a", exp := [9], dom := [],
                       tpl := .tpl "a" [9] 0, key := 0 }]
          previousChunks :=
            [{ html := "a", exp := [5], dom := [1, 2],
               tpl := .tpl "a" [5] 0, key := 0 },
             { html := "b", exp := [], dom := [3, 4],
               tpl := .tpl "b" [] 0, key := 0 },
             { html := "c", exp := [], dom := [5, 6],
               tpl := .tpl "c" [] 0, key := 0 }]
          keyed := []
          exprsE := []
          l := 1 }
        (fun j => ⟨j * 10, 0⟩)
        ([{ id := 1, tagged := true, isText := false, val := "" },
          { id := 2, tagged := true, isText := false, val := "" }] ++
         ([{ id := 3, tagged := true, isText := false, val := "" },
           { id := 4, tagged := true, isText := false, val := "" }] ++
          [{ id := 5, tagged := true, isText := false, val := "" },
           { id := 6, tagged := true, isText := false, val := "" }]))
        100 = some res ∧
      res.trace = [UpCase.structural] ∧
      res.container =
        [{ id := 1, tagged := true, isText := false, val := "" },
         { id := 2, tagged := true, isText := false, val := "" }] ∧
      res.removed = [3, 4] ++ [5, 6] ∧
      res.fresh = 100 ∧
      res.partialState.previousChunks =
        [{ html := "a", exp := [5], dom := [1, 2],
           tpl := .tpl "a" [9] 0, key := 0 }] :=
  up_shrink_trims_trailing (fun _ => 1) _ (fun j => ⟨j * 10, 0⟩) 100
    { html := "a", exp := [5], dom := [1, 2], tpl := .tpl "a" [5] 0, key := 0 }
    { html := "b", exp := [], dom := [3, 4], tpl := .tpl "b" [] 0, key := 0 }
    { html := "c", exp := [], dom := [5, 6], tpl := .tpl "c" [] 0, key := 0 }
    { html := "a", exp := [9], dom := [], tpl := .tpl "a" [9] 0, key := 0 }
    [{ id := 1, tagged := true, isText := false, val := "" },
     { id := 2, tagged := true, isText := false, val := "" }]
    [{ id := 3, tagged := true, isText := false, val := "" },
     { id := 4, tagged := true, isText := false, val := "" }]
    [{ id := 5, tagged := true, isText := false, val := "" },
     { id := 6, tagged := true, isText := false, val := "" }]
    rfl rfl rfl rfl rfl rfl (by decide) rfl rfl rfl (by decide) (by decide)
